import Mathlib

/-!
Shallow embedding of the CSV merger pipeline (`src/App.tsx`, `processFiles`
and `handleFileChange`).  JavaScript strings are modelled as `List Char`;
`String.prototype.trim` is modelled with `Char.isWhitespace`;
`split('\n')` is `List.splitOn '\n'`; the insertion-ordered `Set<string>`
is a list grown by appending unseen elements; JS numeric arithmetic on the
running counters is `Int`.
-/

/-- A JavaScript string, modelled as its list of characters. -/
abbrev Str := List Char

/-- Model of `s.trim()`: drop whitespace from the front, then from the back. -/
def trim (s : Str) : Str :=
  ((s.dropWhile Char.isWhitespace).reverse.dropWhile Char.isWhitespace).reverse

/-- The body of the per-row loop (lines 71-75 of `App.tsx`): trim the
row, drop the first character when it is the digit zero (`substring(1)`,
applied at most once), then prepend the literal prefix 971. -/
def normalizeValue (row : Str) : Str :=
  '9' :: '7' :: '1' ::
    (if (trim row).head? = some '0' then (trim row).drop 1 else trim row)

/-- Spec-side restatement of the normalizer (§4.2 of the spec): after trimming,
if the first character is the digit `'0'` remove exactly that one character,
then prepend the literal prefix `"971"`.  Stated independently of
`normalizeValue` for the refinement proof. -/
def specNormalize (row : Str) : Str :=
  match trim row with
  | '0' :: rest => '9' :: '7' :: '1' :: rest
  | t => '9' :: '7' :: '1' :: t

/-- Model of line 67: split on the newline character, then filter out
rows that are empty after trimming. -/
def fileRows (csv : Str) : List Str :=
  (csv.splitOn '\n').filter (fun row => !(trim row).isEmpty)

/-- The records a single file contributes: all surviving rows except the
first (the header, excluded by starting the loop at `i = 1`), normalized. -/
def fileRecords (csv : Str) : List Str :=
  ((fileRows csv).drop 1).map normalizeValue

/-- The contribution of one file to `totalRecords`:
`rows.length - 1` (line 68), in JS number arithmetic. -/
def fileRecordCount (csv : Str) : Int :=
  (fileRows csv).length - 1

/-- Model of `mergedData.add(value)` on an insertion-ordered set modelled as a list:
appending an element not yet present, leaving the list unchanged otherwise. -/
def insertRec (acc : List Str) (v : Str) : List Str :=
  if v ∈ acc then acc else acc ++ [v]

/-- The merged set built by adding every record in order, as a list in
insertion order (`Array.from(mergedData)` iterates in insertion order). -/
def corpusOf (records : List Str) : List Str :=
  records.foldl insertRec []

/-- Spec-side first-seen deduplication (§3 Corpus, §4.3): keep the first
occurrence of each value, discard every later occurrence. -/
def firstSeenDedup : List Str → List Str
  | [] => []
  | a :: l => a :: firstSeenDedup (l.filter (fun x => decide (x ≠ a)))
termination_by l => l.length
decreasing_by
  simp only [List.length_cons]
  exact Nat.lt_succ_of_le (List.length_filter_le _ _)

/-- The file contents in the order the asynchronous reads complete:
`sched` lists file indices in completion order (the `onload` continuations
mutate `mergedData` and `totalRecords` in completion order, not in the
supplied file order). -/
def schedFiles (files : List Str) (sched : List Nat) : List Str :=
  sched.map (fun i => files.getD i [])

/-- The merged unique data produced by one run whose reads complete in the
order `sched`. -/
def runCorpus (files : List Str) (sched : List Nat) : List Str :=
  corpusOf ((schedFiles files sched).map fileRecords).flatten

/-- The `totalRecords` counter produced by one run whose reads complete in
the order `sched`. -/
def runTotalRecords (files : List Str) (sched : List Nat) : Int :=
  ((schedFiles files sched).map fileRecordCount).sum

/-- Model of `duplicatesRemoved = totalRecords - uniqueData.length`
(line 88), for a
run with completion order `sched`. -/
def runDuplicatesRemoved (files : List Str) (sched : List Nat) : Int :=
  runTotalRecords files sched - (runCorpus files sched).length

/-- The `uniqueData` value for the run whose reads complete in the supplied file
order. -/
def uniqueData (files : List Str) : List Str :=
  runCorpus files (List.range files.length)

/-- The `totalRecords` value for the run whose reads complete in the supplied file
order. -/
def totalRecords (files : List Str) : Int :=
  runTotalRecords files (List.range files.length)

/-- The `duplicatesRemoved` value for the run whose reads complete in the supplied
file order. -/
def duplicatesRemoved (files : List Str) : Int :=
  runDuplicatesRemoved files (List.range files.length)

/-- Model of `const chunkSize = 9000` (line 97). -/
def chunkSize : Nat := 9000

/-- The chunking loop (lines 99-105): repeatedly slice off the next `n`
elements while any remain. -/
def chunksOf (n : Nat) (l : List Str) : List (List Str) :=
  if h : l = [] ∨ n = 0 then []
  else l.take n :: chunksOf n (l.drop n)
termination_by l.length
decreasing_by
  push_neg at h
  simpa [List.length_drop] using
    Nat.sub_lt (List.length_pos.mpr h.1) (Nat.pos_of_ne_zero h.2)

/-- Model of the ProcessedChunk interface: the record slice plus its
serialized byte size. -/
structure ProcessedChunk where
  data : List Str
  size : Nat
deriving Repr, DecidableEq

/-- The byte length of a string when encoded as UTF-8 (the `Blob` size of
line 103). -/
def utf8Len (s : Str) : Nat :=
  (s.map Char.utf8Size).sum

/-- Build the displayed chunk list from the unique data: slices of
`chunkSize`, each with the byte size of its newline-joined serialization. -/
def mkChunks (uniq : List Str) : List ProcessedChunk :=
  (chunksOf chunkSize uniq).map
    (fun c => ⟨c, utf8Len (List.intercalate ['\n'] c)⟩)

/-- Model of the FileStats interface. -/
structure FileStats where
  totalFiles : Nat
  totalRecords : Int
  duplicatesRemoved : Int
deriving Repr, DecidableEq

/-- The component state touched by `processFiles`: the `stats` and
`processedChunks` React state cells. -/
structure AppState where
  stats : Option FileStats
  processedChunks : List ProcessedChunk
deriving Repr, DecidableEq

/-- The outcome of one `FileReader` read: the decoded text, or a read
error (`reader.onerror`). -/
abbrev ReadResult := Except Unit Str

/-- Model of `Promise.all` over the per-file reads: succeeds with all contents
exactly when every single read succeeds, fails if any read fails. -/
def readAll : List ReadResult → Except Unit (List Str)
  | [] => .ok []
  | .error e :: _ => .error e
  | .ok c :: fs =>
    match readAll fs with
    | .ok cs => .ok (c :: cs)
    | .error e => .error e

/-- Model of `processFiles` (lines 52-111) as a state transformer: given the
`selectedFiles` cell (`null` or a file list with the read outcome of each file)
and the current state, produce the next state and the alert raised, if
any.  The success path uses the in-order completion schedule. -/
def processFiles (selected : Option (List ReadResult)) (st : AppState) :
    AppState × Option String :=
  match selected with
  | none => (st, some "Please select at least one CSV file.")
  | some files =>
    match readAll files with
    | .error _ => (st, some "Error processing files. Please try again.")
    | .ok contents =>
      let uniq := uniqueData contents
      (⟨some ⟨files.length, totalRecords contents,
             totalRecords contents - uniq.length⟩,
        mkChunks uniq⟩, none)

/-- Model of `handleFileChange` (lines 46-50): the `selectedFiles` cell is updated
only when the change event carries a non-empty file list. -/
def handleFileChange (selected : Option (List ReadResult))
    (eventFiles : Option (List ReadResult)) : Option (List ReadResult) :=
  match eventFiles with
  | some fs => if fs.length > 0 then some fs else selected
  | none => selected

/-! ### Helper lemmas -/

/-- Folding `insertRec` from any accumulator appends exactly the first-seen
deduplication of the not-yet-seen elements. -/
theorem foldl_insertRec : ∀ (l : List Str) (acc : List Str),
    l.foldl insertRec acc =
      acc ++ firstSeenDedup (l.filter (fun x => decide (x ∉ acc)))
  | [], acc => by simp [firstSeenDedup]
  | a :: l, acc => by
    by_cases ha : a ∈ acc
    · rw [List.foldl_cons, insertRec, if_pos ha, foldl_insertRec l acc,
        List.filter_cons]
      simp [ha]
    · rw [List.foldl_cons, insertRec, if_neg ha, foldl_insertRec l (acc ++ [a]),
        List.filter_cons, if_pos (decide_eq_true ha)]
      rw [firstSeenDedup, List.filter_filter, List.append_assoc,
        List.singleton_append]
      congr 3
      apply List.filter_congr
      intro x _
      simp [List.mem_append, not_or, and_comm]

/-- The merged set, in insertion order, is exactly the first-seen
deduplication of the record stream. -/
theorem corpusOf_eq_firstSeenDedup (l : List Str) :
    corpusOf l = firstSeenDedup l := by
  rw [corpusOf, foldl_insertRec l []]
  simp only [List.nil_append]
  congr 1
  apply List.filter_eq_self.mpr
  intro x _
  simp

/-- Membership in the first-seen deduplication is membership in the
original stream. -/
theorem mem_firstSeenDedup : ∀ (l : List Str) (x : Str),
    x ∈ firstSeenDedup l ↔ x ∈ l
  | [], x => by simp [firstSeenDedup]
  | a :: l, x => by
    rw [firstSeenDedup]
    by_cases hx : x = a
    · simp [hx]
    · simp only [List.mem_cons, hx, false_or]
      rw [mem_firstSeenDedup (l.filter (fun y => decide (y ≠ a))) x]
      simp [List.mem_filter, hx]
termination_by l => l.length
decreasing_by
  simp only [List.length_cons]
  exact Nat.lt_succ_of_le (List.length_filter_le _ _)

/-- First-seen deduplication never lengthens the stream. -/
theorem length_firstSeenDedup_le : ∀ l : List Str,
    (firstSeenDedup l).length ≤ l.length
  | [] => by simp [firstSeenDedup]
  | a :: l => by
    rw [firstSeenDedup]
    simp only [List.length_cons, Nat.succ_le_succ_iff]
    exact le_trans
      (length_firstSeenDedup_le (l.filter (fun y => decide (y ≠ a))))
      (List.length_filter_le _ _)
termination_by l => l.length
decreasing_by
  simp only [List.length_cons]
  exact Nat.lt_succ_of_le (List.length_filter_le _ _)

/-- The merged set holds at most as many elements as were inserted. -/
theorem length_corpusOf_le (l : List Str) :
    (corpusOf l).length ≤ l.length := by
  rw [corpusOf_eq_firstSeenDedup]
  exact length_firstSeenDedup_le l

/-- Every element of the merged set was inserted at some point. -/
theorem mem_corpusOf {l : List Str} {x : Str} (h : x ∈ corpusOf l) :
    x ∈ l := by
  rw [corpusOf_eq_firstSeenDedup, mem_firstSeenDedup] at h
  exact h

/-- Concatenating the chunks restores the chunked list. -/
theorem chunksOf_flatten (n : Nat) (hn : n ≠ 0) (l : List Str) :
    (chunksOf n l).flatten = l := by
  rw [chunksOf]
  split
  · next h =>
    rcases h with h | h
    · simp [h]
    · exact absurd h hn
  · next h =>
    push_neg at h
    have hdec : (l.drop n).length < l.length := by
      simp only [List.length_drop]
      exact Nat.sub_lt (List.length_pos.mpr h.1) (Nat.pos_of_ne_zero hn)
    rw [List.flatten_cons, chunksOf_flatten n hn (l.drop n),
      List.take_append_drop]
termination_by l.length
decreasing_by
  exact hdec

/-- Every chunk is non-empty and no longer than the capacity. -/
theorem chunksOf_length_bounds (n : Nat) (hn : n ≠ 0) (l : List Str) :
    ∀ c ∈ chunksOf n l, 1 ≤ c.length ∧ c.length ≤ n := by
  rw [chunksOf]
  split
  · simp
  · next h =>
    push_neg at h
    have hdec : (l.drop n).length < l.length := by
      simp only [List.length_drop]
      exact Nat.sub_lt (List.length_pos.mpr h.1) (Nat.pos_of_ne_zero hn)
    intro c hc
    rcases List.mem_cons.mp hc with hc | hc
    · subst hc
      constructor
      · rw [Nat.one_le_iff_ne_zero, Ne, List.length_eq_zero,
          List.take_eq_nil_iff]
        push_neg
        exact ⟨hn, h.1⟩
      · rw [List.length_take]
        exact min_le_left _ _
    · exact chunksOf_length_bounds n hn (l.drop n) c hc
termination_by l.length
decreasing_by
  exact hdec

/-- Chunking the empty list produces no chunks. -/
theorem chunksOf_nil (n : Nat) : chunksOf n [] = [] := by
  rw [chunksOf]
  simp

/-- Every chunk except possibly the last is exactly full. -/
theorem chunksOf_dropLast_length (n : Nat) (hn : n ≠ 0) (l : List Str) :
    ∀ c ∈ (chunksOf n l).dropLast, c.length = n := by
  rw [chunksOf]
  split
  · simp
  · next h =>
    push_neg at h
    have hdec : (l.drop n).length < l.length := by
      simp only [List.length_drop]
      exact Nat.sub_lt (List.length_pos.mpr h.1) (Nat.pos_of_ne_zero hn)
    by_cases hd : l.drop n = []
    · rw [hd, chunksOf_nil]
      simp
    · rw [List.dropLast_cons_of_ne_nil]
      · intro c hc
        rcases List.mem_cons.mp hc with hc | hc
        · subst hc
          rw [List.length_take]
          have : n < l.length := by
            have := List.length_drop n l
            rcases Nat.lt_or_ge n l.length with h1 | h1
            · exact h1
            · exact absurd (List.eq_nil_of_length_eq_zero
                (by rw [this]; omega)) hd
          omega
        · exact chunksOf_dropLast_length n hn (l.drop n) c hc
      · rw [chunksOf]
        split
        · next hcon => exact absurd hcon (by push_neg; exact ⟨hd, hn⟩)
        · exact List.cons_ne_nil _ _
termination_by l.length
decreasing_by
  exact hdec

/-- Scheduling the reads in the supplied order yields the files in the
supplied order. -/
theorem schedFiles_range (files : List Str) :
    schedFiles files (List.range files.length) = files := by
  apply List.ext_getElem
  · simp [schedFiles]
  · intro n h1 h2
    simp only [schedFiles, List.getElem_map, List.getElem_range]
    exact List.getD_eq_getElem files [] h2

/-- The in-order unique data is the merged set of the per-file record
streams concatenated in the supplied file order. -/
theorem uniqueData_eq (files : List Str) :
    uniqueData files = corpusOf (files.map fileRecords).flatten := by
  rw [uniqueData, runCorpus, schedFiles_range]

/-- The in-order total-record counter sums the per-file contributions in
the supplied file order. -/
theorem totalRecords_eq (files : List Str) :
    totalRecords files = (files.map fileRecordCount).sum := by
  rw [totalRecords, runTotalRecords, schedFiles_range]

/-- The `duplicatesRemoved` value is literally `totalRecords` minus the unique
count. -/
theorem duplicatesRemoved_eq (files : List Str) :
    duplicatesRemoved files =
      totalRecords files - (uniqueData files).length := rfl

/-- Whenever one of the reads fails, the whole batch read fails. -/
theorem readAll_isError : ∀ (files : List ReadResult),
    Except.error () ∈ files → readAll files = .error ()
  | f :: fs, h => by
    rcases List.mem_cons.mp h with he | hm
    · rw [← he]
      rfl
    · cases f with
      | error e => cases e; rfl
      | ok c => rw [readAll, readAll_isError fs hm]

/-- A head surviving `dropWhile p` falsifies `p`. -/
theorem head_dropWhile_false (p : Char → Bool) (l : List Char) (a : Char)
    (h : (l.dropWhile p).head? = some a) : p a = false := by
  have hm := List.head?_dropWhile_not p l
  rw [h] at hm
  exact hm

/-- A string fixed by both directional whitespace-drops is fixed by
`trim`. -/
theorem trim_of_fixed {s : Str}
    (h1 : s.dropWhile Char.isWhitespace = s)
    (h2 : s.reverse.dropWhile Char.isWhitespace = s.reverse) :
    trim s = s := by
  rw [trim, h1, h2, List.reverse_reverse]

/-- The reversal of a trimmed string is a `dropWhile` output. -/
theorem trim_reverse (s : Str) :
    (trim s).reverse =
      (s.dropWhile Char.isWhitespace).reverse.dropWhile Char.isWhitespace := by
  rw [trim, List.reverse_reverse]

/-- The last character of a trimmed string is never whitespace. -/
theorem trim_last_not_ws (s : Str) (a : Char)
    (h : (trim s).reverse.head? = some a) : Char.isWhitespace a = false := by
  rw [trim_reverse] at h
  exact head_dropWhile_false _ _ _ h

/-- Removing the first character cannot create trailing whitespace. -/
theorem tail_reverse_head (l : List Char) (a : Char)
    (h : l.tail.reverse.head? = some a) : l.reverse.head? = some a := by
  cases l with
  | nil => simp at h
  | cons b rest =>
    simp only [List.tail_cons] at h
    cases hr : rest.reverse with
    | nil => rw [hr] at h; simp at h
    | cons c u =>
      rw [hr] at h
      simp only [List.head?_cons, Option.some.injEq] at h
      rw [List.reverse_cons, hr, List.cons_append]
      simp [h]

/-- The output of the normalizer carries no trailing whitespace. -/
theorem normalizeValue_reverse_head (row : Str) (a : Char)
    (h : (normalizeValue row).reverse.head? = some a) :
    Char.isWhitespace a = false := by
  rw [normalizeValue] at h
  have hrev : ∀ v1 : Str, ('9' :: '7' :: '1' :: v1).reverse =
      v1.reverse ++ ['1', '7', '9'] := by intro v1; simp
  rw [hrev] at h
  cases hv : (if (trim row).head? = some '0'
      then (trim row).drop 1 else trim row).reverse with
  | nil =>
    rw [hv, List.nil_append] at h
    simp only [List.head?_cons, Option.some.injEq] at h
    subst h
    decide
  | cons c u =>
    rw [hv, List.cons_append] at h
    simp only [List.head?_cons, Option.some.injEq] at h
    subst h
    split at hv
    · have hc : (trim row).tail.reverse.head? = some c := by
        rw [← List.drop_one, hv]; rfl
      exact trim_last_not_ws row c (tail_reverse_head _ c hc)
    · exact trim_last_not_ws row c (by rw [hv]; rfl)

/-- Normalized values are fixed by `trim`. -/
theorem trim_normalizeValue (row : Str) :
    trim (normalizeValue row) = normalizeValue row := by
  apply trim_of_fixed
  · rw [normalizeValue, List.dropWhile_cons, if_neg (by decide)]
  · cases hv : (normalizeValue row).reverse with
    | nil => simp [hv]
    | cons a u =>
      rw [List.dropWhile_cons,
        normalizeValue_reverse_head row a (by rw [hv]; rfl)]
      simp

/-! ### Example inputs shared by the witnesses -/

/-- Example file of the spec (§8, Example 1): header `phone`, then the
rows `0501234567` and `501234568`. -/
def exampleFile : Str :=
  ['p', 'h', 'o', 'n', 'e', '\n',
   '0', '5', '0', '1', '2', '3', '4', '5', '6', '7', '\n',
   '5', '0', '1', '2', '3', '4', '5', '6', '8']

/-- A two-line file contributing the single record derived from `x`. -/
def fileX : Str := ['h', '\n', 'x']

/-- A two-line file contributing the single record derived from `y`. -/
def fileY : Str := ['h', '\n', 'y']

/-! ### Claims -/

/-- C3: for every non-header, non-blank line the normalizer trims
whitespace, removes exactly one leading zero exactly when the trimmed
value starts with `'0'`, and prepends the literal `971`; blank lines are
discarded before this stage and the first surviving line of each file is
excluded as a header. -/
theorem normalizer_conformance (csv row : Str) :
    normalizeValue row = specNormalize row ∧
    (∀ r ∈ fileRows csv, trim r ≠ []) ∧
    fileRecords csv = ((fileRows csv).drop 1).map normalizeValue := by
  refine ⟨?_, ?_, rfl⟩
  · cases ht : trim row with
    | nil =>
      rw [normalizeValue, specNormalize, ht]
      rfl
    | cons c rest =>
      rw [normalizeValue, specNormalize, ht]
      by_cases hc : c = '0'
      · subst hc
        simp
      · rw [if_neg (by simp [hc])]
        split
        · next rest' heq =>
          exact absurd (List.cons.injEq .. ▸ congrArg id heq).1 hc
        · rfl
  · intro r hr
    rw [fileRows, List.mem_filter] at hr
    simpa [List.isEmpty_iff] using hr.2

/-- Witness for C3: the first data row of the example file survives the
blank filter and is normalized according to the spec-side normalizer. -/
theorem normalizer_conformance_witness :
    normalizeValue ['0', '5', '0', '1', '2', '3', '4', '5', '6', '7'] =
      specNormalize ['0', '5', '0', '1', '2', '3', '4', '5', '6', '7'] ∧
    trim ['0', '5', '0', '1', '2', '3', '4', '5', '6', '7'] ≠ [] := by
  constructor
  · exact (normalizer_conformance exampleFile
      ['0', '5', '0', '1', '2', '3', '4', '5', '6', '7']).1
  · exact (normalizer_conformance exampleFile
      ['0', '5', '0', '1', '2', '3', '4', '5', '6', '7']).2.1
      ['0', '5', '0', '1', '2', '3', '4', '5', '6', '7'] (by decide)

/-- C4: normalization is not idempotent — its output always carries the
`971` prefix, never starts with `'0'`, and normalizing it again prepends
a further `971`, changing the value. -/
theorem normalize_not_idempotent (row : Str) :
    (∃ t, normalizeValue row = '9' :: '7' :: '1' :: t) ∧
    (normalizeValue row).head? ≠ some '0' ∧
    normalizeValue (normalizeValue row) =
      '9' :: '7' :: '1' :: normalizeValue row ∧
    normalizeValue (normalizeValue row) ≠ normalizeValue row := by
  have hcond : ¬ (normalizeValue row).head? = some '0' := by
    rw [normalizeValue]
    simp
  have h1 : normalizeValue (normalizeValue row) =
      '9' :: '7' :: '1' :: normalizeValue row := by
    conv_lhs => rw [normalizeValue]
    rw [trim_normalizeValue, if_neg hcond]
  refine ⟨⟨_, by rw [normalizeValue]⟩, hcond, h1, fun heq => ?_⟩
  rw [h1] at heq
  have hl := congrArg List.length heq
  simp at hl
  omega

/-- C5: concatenating the produced chunks in order reproduces the unique
record sequence exactly. -/
theorem chunks_partition_exact (files : List Str) :
    ((mkChunks (uniqueData files)).map ProcessedChunk.data).flatten =
      uniqueData files := by
  rw [mkChunks, List.map_map]
  have hid : (ProcessedChunk.data ∘ fun c =>
      (⟨c, utf8Len (List.intercalate ['\n'] c)⟩ : ProcessedChunk)) =
      id := rfl
  rw [hid, List.map_id]
  exact chunksOf_flatten chunkSize (by decide) _

/-- C6: every chunk except possibly the last holds exactly 9000 records,
the last between 1 and 9000; 9005 unique records give chunks of sizes
9000 and 5. -/
theorem chunk_size_bounds (l : List Str) :
    (∀ c ∈ (mkChunks l).dropLast, c.data.length = chunkSize) ∧
    (∀ c ∈ mkChunks l, 1 ≤ c.data.length ∧ c.data.length ≤ chunkSize) ∧
    (l.length = 9005 →
      (mkChunks l).map (fun c => c.data.length) = [9000, 5]) := by
  refine ⟨?_, ?_, ?_⟩
  · intro c hc
    rw [mkChunks, ← List.map_dropLast] at hc
    rcases List.mem_map.mp hc with ⟨d, hd, hcd⟩
    rw [← hcd]
    exact chunksOf_dropLast_length chunkSize (by decide) l d hd
  · intro c hc
    rw [mkChunks] at hc
    rcases List.mem_map.mp hc with ⟨d, hd, hcd⟩
    rw [← hcd]
    exact chunksOf_length_bounds chunkSize (by decide) l d hd
  · intro hl
    have h1 : ¬ (l = [] ∨ chunkSize = 0) := by
      push_neg
      constructor
      · intro h
        rw [h] at hl
        simp at hl
      · decide
    have h2 : ¬ (l.drop chunkSize = [] ∨ chunkSize = 0) := by
      push_neg
      constructor
      · intro h
        have h5 := congrArg List.length h
        rw [List.length_drop, hl] at h5
        simp [chunkSize] at h5
      · decide
    have h3 : (l.drop chunkSize).drop chunkSize = [] := by
      apply List.eq_nil_of_length_eq_zero
      rw [List.length_drop, List.length_drop, hl]
      decide
    rw [mkChunks, chunksOf, dif_neg h1, chunksOf, dif_neg h2, h3,
      chunksOf_nil]
    simp only [List.map_cons, List.map_nil]
    rw [List.length_take, List.length_take, List.length_drop, hl]
    decide

/-- A corpus of 9005 pairwise distinct records. -/
def bigCorpus : List Str :=
  (List.range 9005).map (fun n => '9' :: '7' :: '1' :: (Nat.repr n).toList)

/-- A populated display state left over from a prior successful run. -/
def errorState : AppState :=
  ⟨some ⟨1, 2, 0⟩, [⟨[['9', '7', '1', 'x']], 4⟩]⟩

/-- Chunking a one-element list yields that single slice. -/
theorem chunksOf_singleton (n : Nat) (hn : n ≠ 0) (r : Str) :
    chunksOf n [r] = [[r]] := by
  rw [chunksOf, dif_neg (by push_neg; exact ⟨List.cons_ne_nil _ _, hn⟩)]
  have h1 : List.take n [r] = [r] :=
    List.take_of_length_le (by simpa using Nat.one_le_iff_ne_zero.mpr hn)
  have h2 : List.drop n [r] = [] :=
    List.drop_eq_nil_of_le (by simpa using Nat.one_le_iff_ne_zero.mpr hn)
  rw [h1, h2, chunksOf_nil]

/-- Witness for C6: a corpus of 9005 distinct records is chunked into
sizes 9000 and 5, and a one-record corpus gives one chunk within bounds. -/
theorem chunk_size_bounds_witness :
    bigCorpus.length = 9005 ∧
    (mkChunks bigCorpus).map (fun c => c.data.length) = [9000, 5] ∧
    (⟨[['9', '7', '1', 'x']], 4⟩ : ProcessedChunk) ∈
      mkChunks [['9', '7', '1', 'x']] ∧
    1 ≤ (⟨[['9', '7', '1', 'x']], 4⟩ : ProcessedChunk).data.length ∧
    (⟨[['9', '7', '1', 'x']], 4⟩ : ProcessedChunk).data.length ≤
      chunkSize := by
  have hlen : bigCorpus.length = 9005 := by
    rw [bigCorpus, List.length_map, List.length_range]
  have hmem : (⟨[['9', '7', '1', 'x']], 4⟩ : ProcessedChunk) ∈
      mkChunks [['9', '7', '1', 'x']] := by
    rw [mkChunks, chunksOf_singleton chunkSize (by decide)]
    decide
  have hb := (chunk_size_bounds [['9', '7', '1', 'x']]).2.1
    ⟨[['9', '7', '1', 'x']], 4⟩ hmem
  exact ⟨hlen, (chunk_size_bounds bigCorpus).2.2 hlen, hmem, hb.1, hb.2⟩

/-- C7: if any read fails the whole batch fails: the error alert is
raised and the displayed statistics and chunks are left untouched. -/
theorem read_failure_atomic (files : List ReadResult) (st : AppState)
    (h : Except.error () ∈ files) :
    processFiles (some files) st =
      (st, some "Error processing files. Please try again.") := by
  rw [processFiles, readAll_isError files h]

/-- Witness for C7: a failing read among the selected files leaves a
previously populated state untouched and raises the alert. -/
theorem read_failure_atomic_witness :
    Except.error () ∈ [Except.error (), Except.ok fileX] ∧
    processFiles (some [Except.error (), Except.ok fileX]) errorState =
      (errorState, some "Error processing files. Please try again.") :=
  ⟨List.mem_cons_self _ _,
   read_failure_atomic _ errorState (List.mem_cons_self _ _)⟩

/-- C8: invoking the pipeline with no files selected raises the alert
and produces no statistics, chunks, or other state change; a change
event carrying no files never populates the selection. -/
theorem no_input_no_update (st : AppState) :
    processFiles none st =
      (st, some "Please select at least one CSV file.") ∧
    (∀ sel : Option (List ReadResult),
      handleFileChange sel (some []) = sel ∧
      handleFileChange sel none = sel) := by
  refine ⟨rfl, fun sel => ⟨rfl, rfl⟩⟩

/-- C1 (amended): for every run — any completion order drawn from the
supplied file indices — in which every input file has at least one
non-blank line, the unique count is at most the total pre-dedup line
count, and duplicatesRemoved equals totalRecords minus the unique count
and is non-negative. -/
theorem stats_accounting (files : List Str) (sched : List Nat)
    (hs : ∀ i ∈ sched, i < files.length)
    (hne : ∀ f ∈ files, fileRows f ≠ []) :
    ((runCorpus files sched).length : Int) ≤ runTotalRecords files sched ∧
    runDuplicatesRemoved files sched =
      runTotalRecords files sched - (runCorpus files sched).length ∧
    0 ≤ runDuplicatesRemoved files sched := by
  have hmem : ∀ f ∈ schedFiles files sched, fileRows f ≠ [] := by
    intro f hf
    rw [schedFiles, List.mem_map] at hf
    rcases hf with ⟨i, hi, hfi⟩
    have hlt := hs i hi
    rw [List.getD_eq_getElem files [] hlt] at hfi
    exact hne _ (hfi ▸ List.getElem_mem hlt)
  have hcount : ∀ f ∈ schedFiles files sched,
      ((fileRecords f).length : Int) = fileRecordCount f := by
    intro f hf
    rw [fileRecords, fileRecordCount, List.length_map, List.length_drop]
    have hpos : 1 ≤ (fileRows f).length :=
      List.length_pos.mpr (hmem f hf)
    rw [Nat.cast_sub hpos]
    simp
  have h2 : ((((schedFiles files sched).map fileRecords).flatten).length :
      Int) = runTotalRecords files sched := by
    rw [runTotalRecords, List.length_flatten, List.map_map,
      Nat.cast_list_sum, List.map_map]
    congr 1
    apply List.map_congr_left
    intro f hf
    simpa [Function.comp] using hcount f hf
  have hle : ((runCorpus files sched).length : Int) ≤
      runTotalRecords files sched := by
    calc ((runCorpus files sched).length : Int)
        ≤ (((schedFiles files sched).map fileRecords).flatten).length :=
          Nat.cast_le.mpr (length_corpusOf_le _)
      _ = runTotalRecords files sched := h2
  refine ⟨hle, rfl, ?_⟩
  rw [runDuplicatesRemoved]
  omega

/-- Counterexample to C1 as stated: a single file with no non-blank lines
contributes −1 to totalRecords and nothing to the corpus, so the unique
count exceeds the total and duplicatesRemoved is negative. -/
theorem stats_accounting_cex :
    totalRecords [([] : Str)] = -1 ∧
    uniqueData [([] : Str)] = [] ∧
    duplicatesRemoved [([] : Str)] = -1 ∧
    ¬ 0 ≤ duplicatesRemoved [([] : Str)] := by
  decide

/-- Witness for C1: the example file is non-blank, and a run over it with
the in-order schedule has non-negative duplicatesRemoved. -/
theorem stats_accounting_witness :
    (∀ i ∈ [0], i < ([exampleFile] : List Str).length) ∧
    (∀ f ∈ [exampleFile], fileRows f ≠ []) ∧
    0 ≤ runDuplicatesRemoved [exampleFile] [0] := by
  refine ⟨by decide, by decide, ?_⟩
  exact (stats_accounting [exampleFile] [0] (by decide) (by decide)).2.2

/-- C2 (amended): the corpus iteration order is first-seen insertion
order over the per-file record streams in read-completion order, line
order within each file; when the reads complete in the supplied file
order this is exactly file order then line order, a pure function of the
file contents. -/
theorem corpus_completion_order (files : List Str) (sched : List Nat) :
    runCorpus files sched =
      firstSeenDedup ((schedFiles files sched).map fileRecords).flatten ∧
    (sched = List.range files.length →
      runCorpus files sched =
        firstSeenDedup ((files.map fileRecords)).flatten) := by
  constructor
  · exact corpusOf_eq_firstSeenDedup _
  · intro h
    subst h
    rw [runCorpus, schedFiles_range]
    exact corpusOf_eq_firstSeenDedup _

/-- Counterexample to C2 as stated: the same files in the same supplied
order, under two read-completion orders that are both permutations of
the file indices, produce differently ordered unique data, so the final
iteration order is not determined by the supplied file order and content
alone. -/
theorem corpus_completion_order_cex :
    (List.range 2).Perm [1, 0] ∧
    runCorpus [fileX, fileY] [0, 1] ≠ runCorpus [fileX, fileY] [1, 0] := by
  decide

/-- Witness for C2: under the in-order schedule the corpus of the two
example files is the first-seen dedup of their concatenated records. -/
theorem corpus_completion_order_witness :
    runCorpus [fileX, fileY] [0, 1] =
      firstSeenDedup (([fileX, fileY].map fileRecords)).flatten :=
  (corpus_completion_order [fileX, fileY] [0, 1]).2 (by decide)

/-- C9: every record in the merged corpus — under any completion order —
and every record of every produced chunk begins with the characters
`971`. -/
theorem corpus_chunks_start971 (files : List Str) (sched : List Nat) :
    (∀ r ∈ runCorpus files sched, ∃ t, r = '9' :: '7' :: '1' :: t) ∧
    (∀ c ∈ mkChunks (uniqueData files), ∀ r ∈ c.data,
      ∃ t, r = '9' :: '7' :: '1' :: t) := by
  have hrec : ∀ fs : List Str, ∀ r ∈ (fs.map fileRecords).flatten,
      ∃ t, r = '9' :: '7' :: '1' :: t := by
    intro fs r hr
    rw [List.mem_flatten] at hr
    rcases hr with ⟨l, hl, hrl⟩
    rw [List.mem_map] at hl
    rcases hl with ⟨f, _, hfl⟩
    rw [← hfl, fileRecords, List.mem_map] at hrl
    rcases hrl with ⟨row, _, hrow⟩
    refine ⟨if (trim row).head? = some '0' then (trim row).drop 1
      else trim row, ?_⟩
    rw [← hrow, normalizeValue]
  constructor
  · intro r hr
    exact hrec _ r (mem_corpusOf hr)
  · intro c hc r hr
    have hmem : r ∈ uniqueData files := by
      rw [uniqueData, runCorpus,
        ← chunksOf_flatten chunkSize (by decide)
          (corpusOf ((schedFiles files
            (List.range files.length)).map fileRecords).flatten),
        List.mem_flatten]
      refine ⟨c.data, ?_, hr⟩
      rw [mkChunks] at hc
      rcases List.mem_map.mp hc with ⟨d, hd, hcd⟩
      rw [← hcd]
      exact hd
    exact hrec _ r (mem_corpusOf hmem)

/-- Witness for C9: the first record of a concrete run indeed starts
with `971`. -/
theorem corpus_chunks_start971_witness :
    ∃ t, ['9', '7', '1', 'x'] = '9' :: '7' :: '1' :: t :=
  (corpus_chunks_start971 [fileX, fileY] [0, 1]).1
    ['9', '7', '1', 'x'] (by decide)

/-- C10: a file whose text has no lines that are non-empty after
trimming contributes −1 to the running totalRecords and nothing to the
corpus, driving totalRecords and duplicatesRemoved below the values the
spec accounting predicts. -/
theorem blank_file_negative_count (csv : Str) (h : fileRows csv = []) :
    fileRecordCount csv = -1 ∧ fileRecords csv = [] ∧
    (∀ files : List Str,
      totalRecords (files ++ [csv]) = totalRecords files - 1 ∧
      uniqueData (files ++ [csv]) = uniqueData files ∧
      duplicatesRemoved (files ++ [csv]) = duplicatesRemoved files - 1) := by
  have hc : fileRecordCount csv = -1 := by
    rw [fileRecordCount, h]
    rfl
  have hr : fileRecords csv = [] := by
    rw [fileRecords, h]
    rfl
  refine ⟨hc, hr, fun files => ?_⟩
  have ht : totalRecords (files ++ [csv]) = totalRecords files - 1 := by
    rw [totalRecords_eq, totalRecords_eq, List.map_append, List.sum_append]
    simp only [List.map_cons, List.map_nil, List.sum_cons, List.sum_nil, hc]
    omega
  have hu : uniqueData (files ++ [csv]) = uniqueData files := by
    rw [uniqueData_eq, uniqueData_eq, List.map_append, List.flatten_append]
    simp [hr]
  refine ⟨ht, hu, ?_⟩
  rw [duplicatesRemoved_eq, duplicatesRemoved_eq, ht, hu]
  omega

/-- Witness for C10: a file holding a single space is blank, and
appending it to the example batch decrements duplicatesRemoved. -/
theorem blank_file_negative_count_witness :
    fileRows [' '] = [] ∧ fileRecordCount [' '] = -1 ∧
    duplicatesRemoved [exampleFile, [' ']] =
      duplicatesRemoved [exampleFile] - 1 := by
  refine ⟨by decide, (blank_file_negative_count [' '] (by decide)).1, ?_⟩
  exact ((blank_file_negative_count [' '] (by decide)).2.2 [exampleFile]).2.2
